import Mathlib

/-
Shallow embedding of the lserver line-server (Go).

The target file is modelled as a list of records, each record being the
bytes of one line without its terminating newline byte (10).  The byte
stream of the file is the concatenation of the records, each followed by
a newline byte.  Machine integers (Go int and int64) are modelled as Nat
where the source values are nonnegative counts and offsets, and as Int
where a sign can occur (the user supplied line number and the cache
capacity).  Every division in the embedding is evaluated at nonnegative
operands, where Go division and Lean division agree.  Go runtime panics
(division by zero, make with a negative length) are modelled as none.
-/

set_option maxHeartbeats 1000000

/-- Bytes of one record of the file, the terminating newline excluded. -/
abbrev LineRec := List Nat

/-- A file is well formed when no record contains the newline byte 10. -/
def WFRecs (recs : List LineRec) : Prop := ∀ r ∈ recs, 10 ∉ r

instance (recs : List LineRec) : Decidable (WFRecs recs) :=
  List.decidableBAll _ recs

/-- The byte stream of the file: each record followed by a newline byte. -/
def fileBytes : List LineRec → List Nat
  | [] => []
  | r :: rs => r ++ 10 :: fileBytes rs

/-- True byte offset of the first byte of line j (0-based). -/
def lineStart : List LineRec → Nat → Nat
  | _, 0 => 0
  | [], _ + 1 => 0
  | r :: rs, j + 1 => r.length + 1 + lineStart rs j

/-- getLineCount of cache.go: the number of newline bytes in the file. -/
def getLineCount (bs : List Nat) : Nat := bs.count 10

/-- lineInfo of cache.go: per-line data, a line number and a byte offset. -/
structure lineInfo where
  lineno : Nat
  offset : Nat
deriving DecidableEq, Repr, Inhabited

/-- findLineInfo of cache.go: the iterative binary search over the cache
slice, translated slice narrowing for slice narrowing (s[:mid] is take,
s[mid:] is drop). -/
def findLineInfo (linenum : Nat) (s : List lineInfo) : Option lineInfo :=
  if s.length = 0 then none
  else if s.length = 1 then
    if (s.getD 0 default).lineno < linenum then some (s.getD 0 default) else none
  else
    let mid := s.length / 2
    let mv := (s.getD mid default).lineno
    if linenum = mv then some (s.getD mid default)
    else if linenum < mv then findLineInfo linenum (s.take mid)
    else findLineInfo linenum (s.drop mid)
termination_by s.length
decreasing_by
  · simp only [List.length_take]
    omega
  · simp only [List.length_drop]
    omega

/-- The errors Lookup of cache.go can produce.  outOfRange carries the
1-based requested number and the line total, as the Go error message does;
unexpectedSearch carries the 0-based target; readFail stands for any read
error (in this model, end of file reached before a newline). -/
inductive LookupErr where
  | outOfRange (requested : Int) (totLines : Nat)
  | unexpectedSearch (lineno : Nat)
  | readFail
deriving DecidableEq, Repr

/-- bufio ReadBytes with delimiter newline: the bytes up to and including
the first newline, and the remaining stream; none when the stream ends
before a newline (the Go code discards the partial data and fails). -/
def readRec : List Nat → Option (List Nat × List Nat)
  | [] => none
  | b :: rest =>
    if b = 10 then some ([10], rest)
    else
      match readRec rest with
      | some (l, r) => some (b :: l, r)
      | none => none

/-- The forward scan loop of Lookup: read cnt lines, return the last one
read; with cnt = 0 the loop body never runs and the empty result is
returned, as in the Go code. -/
def scanLoop (bs : List Nat) (cnt : Nat) : Except LookupErr (List Nat) :=
  match cnt with
  | 0 => .ok []
  | c + 1 =>
    match readRec bs with
    | none => .error .readFail
    | some (l, rest) => if c = 0 then .ok l else scanLoop rest c

/-- Lookup of cache.go: 1-based range check, binary search for the anchor,
defensive check, then forward scan from the anchor (or from offset 0 and
line 0 when no anchor was found). -/
def Lookup (bytes : List Nat) (cache : List lineInfo) (totLines : Nat)
    (lineno : Int) : Except LookupErr (List Nat) :=
  let ln := lineno - 1
  if ln < 0 ∨ (totLines : Int) ≤ ln then .error (.outOfRange lineno totLines)
  else
    let target := ln.toNat
    match findLineInfo target cache with
    | some li =>
      if target < li.lineno then .error (.unexpectedSearch target)
      else scanLoop (bytes.drop li.offset) (target + 1 - li.lineno)
    | none => scanLoop (bytes.drop 0) (target + 1 - 0)

/-- Matches exactly the out-of-range error of Lookup. -/
def isOutOfRangeErr : Except LookupErr (List Nat) → Bool
  | .error (.outOfRange _ _) => true
  | _ => false

/-- Matches exactly the defensive unexpected-search error of Lookup. -/
def isUnexpectedErr : Except LookupErr (List Nat) → Bool
  | .error (.unexpectedSearch _) => true
  | _ => false

/-- getUnusedSlotCount of cache.go, verbatim branch structure. -/
def getUnusedSlotCount (lineCnt : Nat) (cacheSize : Nat) : Int :=
  let expectedCacheSize : Nat :=
    if cacheSize < lineCnt then
      if lineCnt % cacheSize = 0 then cacheSize
      else
        let e := lineCnt / (lineCnt / cacheSize + 1)
        if lineCnt % (lineCnt / cacheSize + 1) ≠ 0 then e + 1 else e
    else cacheSize
  (cacheSize : Int) - (expectedCacheSize : Int)

/-- The skip factor computation of buildCache. -/
def skipOf (lineCnt cacheLen : Nat) : Nat :=
  if lineCnt % cacheLen ≠ 0 then lineCnt / cacheLen + 1 else lineCnt / cacheLen

/-- The extras selection of processLines: walk the random permutation of
the slot indices, keep values not divisible by the skip factor, stop at
freeSlots values, and sort them.  The Go loop with its break is
filter-then-take; sort.Sort is modelled by insertion sort. -/
def pickExtras (randSlots : List Nat) (skipFactor : Nat) (freeSlots : Int) :
    List Nat :=
  if 0 < freeSlots then
    List.insertionSort (· ≤ ·)
      ((randSlots.filter (fun v => v % skipFactor != 0)).take freeSlots.toNat)
  else []

/-- The byte reading loop of processLines.  State: the sorted extras not
yet consumed, the offset of the start of the current line (saveOff), the
offset of the next byte to read, the current line index, and the anchors
emitted so far.  Writing into the preallocated slice li and truncating to
nextSlot is modelled by appending to acc; the slice bound is respected in
every reachable run (the count theorems below give final count = len li). -/
def plLoop (numLines skipFactor : Nat) :
    List Nat → List Nat → Nat → Nat → Nat → List lineInfo → List lineInfo
  | [], _, _, _, _, acc => acc
  | b :: rest, extras, saveOff, offset, line, acc =>
    if numLines ≤ line then acc
    else if b = 10 then
      let useExtra := extras.head? = some line
      if line % skipFactor = 0 ∨ useExtra then
        plLoop numLines skipFactor rest (if useExtra then extras.tail else extras)
          (offset + 1) (offset + 1) (line + 1) (acc ++ [⟨line, saveOff⟩])
      else
        plLoop numLines skipFactor rest extras (offset + 1) (offset + 1)
          (line + 1) acc
    else
      plLoop numLines skipFactor rest extras saveOff (offset + 1) line acc

/-- processLines of cache.go.  liLen is the length of the preallocated
slice li; randSlots stands for the permutation returned by rand.Perm(len li). -/
def processLines (bytes : List Nat) (liLen numLines skipFactor : Nat)
    (randSlots : List Nat) : List lineInfo :=
  let freeSlots := getUnusedSlotCount numLines liLen
  let extras := pickExtras randSlots skipFactor freeSlots
  plLoop numLines skipFactor bytes extras 0 0 0 []

/-- buildCache of cache.go.  none models a Go runtime panic: make with a
negative length when cacheLen is negative, and division by zero in the
skip factor when cacheLen is zero (both only reachable when
lineCnt >= cacheLen). -/
def buildCache (bytes : List Nat) (lineCnt : Nat) (cacheLen : Int)
    (randSlots : List Nat) : Option (List lineInfo) :=
  if (lineCnt : Int) < cacheLen then
    some (processLines bytes lineCnt lineCnt 1 randSlots)
  else if cacheLen < 0 then none
  else if cacheLen = 0 then none
  else
    some (processLines bytes cacheLen.toNat lineCnt
      (skipOf lineCnt cacheLen.toNat) randSlots)

/-- Record-level restatement of plLoop, one step per line of the file;
proved below to agree with plLoop on well formed files. -/
def plRecs (numLines skipFactor : Nat) :
    List LineRec → List Nat → Nat → Nat → List lineInfo
  | [], _, _, _ => []
  | r :: rs, extras, offset, line =>
    if numLines ≤ line then []
    else
      let useExtra := extras.head? = some line
      let rest := plRecs numLines skipFactor rs
        (if useExtra then extras.tail else extras)
        (offset + r.length + 1) (line + 1)
      if line % skipFactor = 0 ∨ useExtra then ⟨line, offset⟩ :: rest else rest

/-- Number of j in the interval from ell (inclusive), of width m, with
j divisible by k. -/
def uniCount (k : Nat) : Nat → Nat → Nat
  | _, 0 => 0
  | ell, m + 1 => (if ell % k = 0 then 1 else 0) + uniCount k (ell + 1) m

/-- The construction invariant of the offset cache: anchors strictly
ascending by line number, every anchor in range with its true start
offset. -/
def ValidCache (recs : List LineRec) (cache : List lineInfo) : Prop :=
  cache.Pairwise (fun x y => x.lineno < y.lineno) ∧
    ∀ a ∈ cache, a.lineno < recs.length ∧ a.offset = lineStart recs a.lineno

instance (recs : List LineRec) (cache : List lineInfo) :
    Decidable (ValidCache recs cache) := by
  unfold ValidCache
  exact instDecidableAnd

/-- The shutdown-relevant state of the server of the connection layer:
the isShutdown flag, whether a listener exists, and how many times the
listener was closed (to state that a second shutdown does not close it
again). -/
structure ServerState where
  isShutdown : Bool
  hasListener : Bool
  listenerCloseCount : Nat
deriving DecidableEq, Repr

/-- shutdown of the server: return at once when the flag is already set,
otherwise set the flag and close the listener when there is one.  Both the
SHUTDOWN command and the termination signal handler invoke exactly this
transition. -/
def shutdown (s : ServerState) : ServerState :=
  if s.isShutdown then s
  else
    { isShutdown := true
      hasListener := s.hasListener
      listenerCloseCount :=
        if s.hasListener then s.listenerCloseCount + 1
        else s.listenerCloseCount }

/-- Whether a byte is whitespace for TrimSpace (ASCII model of
unicode.IsSpace: space, tab, newline, vertical tab, form feed, carriage
return). -/
def isSpaceByte (b : Nat) : Bool :=
  b == 32 || b == 9 || b == 10 || b == 11 || b == 12 || b == 13

/-- strings.TrimSpace on the bytes of a command line. -/
def trimSpace (bs : List Nat) : List Nat :=
  ((bs.dropWhile isSpaceByte).reverse.dropWhile isSpaceByte).reverse

/-- strings.Split with separator a single space: splits around every
space byte; the empty input yields one empty field, as in Go. -/
def splitOnSpace : List Nat → List (List Nat)
  | [] => [[]]
  | b :: rest =>
    let r := splitOnSpace rest
    if b = 32 then [] :: r
    else
      match r with
      | [] => [[b]]
      | h :: t => (b :: h) :: t

/-- Value of an ASCII decimal digit byte. -/
def digitVal (b : Nat) : Option Nat :=
  if 48 ≤ b ∧ b ≤ 57 then some (b - 48) else none

/-- Accumulate decimal digits; none on a non-digit byte. -/
def digitsValAux : Nat → List Nat → Option Nat
  | acc, [] => some acc
  | acc, b :: rest =>
    match digitVal b with
    | some d => digitsValAux (acc * 10 + d) rest
    | none => none

/-- Value of a nonempty all-digit byte string; none otherwise. -/
def digitsVal : List Nat → Option Nat
  | [] => none
  | bs => digitsValAux 0 bs

/-- strconv.ParseInt with base 10 and bit size 64: optional sign then
digits.  Returns the value and a success flag; on a syntax error the
value is 0, on a range error the value is clamped to the int64 bounds,
both with a false flag, as in Go. -/
def parseInt64 (bs : List Nat) : Int × Bool :=
  let sd : Bool × List Nat :=
    match bs with
    | 43 :: rest => (false, rest)
    | 45 :: rest => (true, rest)
    | _ => (false, bs)
  match digitsVal sd.2 with
  | none => (0, false)
  | some v =>
    if sd.1 then
      if 2 ^ 63 < v then (-(2 ^ 63 : Int), false) else (-(v : Int), true)
    else
      if 2 ^ 63 - 1 < v then ((2 ^ 63 - 1 : Int), false) else ((v : Int), true)

/-- One reply written to the connection; each constructor stands for one
distinct conn.Write format string of handleConnection. -/
inductive Reply where
  | lineText (bytes : List Nat)
  | invalidLineNumber (token : List Nat)
  | lookupFailed (val : Int) (e : LookupErr)
  | invalidRequest (line : List Nat)
deriving DecidableEq, Repr

/-- Result of processing one command line: the replies written, the
arguments Lookup was invoked with, whether the loop breaks, and whether
the shutdown transition was requested. -/
structure HandleResult where
  replies : List Reply
  lookups : List Int
  brk : Bool
  shutdownReq : Bool
deriving DecidableEq, Repr

/-- Bytes of the command word GET. -/
def getCmdBytes : List Nat := [71, 69, 84]

/-- Bytes of the command word QUIT. -/
def quitCmdBytes : List Nat := [81, 85, 73, 84]

/-- Bytes of the command word SHUTDOWN. -/
def shutdownCmdBytes : List Nat := [83, 72, 85, 84, 68, 79, 87, 78]

/-- The per-command body of handleConnection, over an abstract lookup
capability lk (the IndexCache interface).  Note the Go source writes the
invalid-line-number error and then still falls through to the Lookup
call with the error value of ParseInt. -/
def handleLine (lk : Int → Except LookupErr (List Nat)) (raw : List Nat) :
    HandleResult :=
  let line := trimSpace raw
  let parts := splitOnSpace line
  if parts.length = 1 ∧ parts.getD 0 [] = quitCmdBytes then
    ⟨[], [], true, false⟩
  else if parts.length = 1 ∧ parts.getD 0 [] = shutdownCmdBytes then
    ⟨[], [], true, true⟩
  else if parts.length = 2 ∧ parts.getD 0 [] = getCmdBytes then
    let p := parseInt64 (parts.getD 1 [])
    let pre :=
      if p.2 then [] else [Reply.invalidLineNumber (parts.getD 1 [])]
    match lk p.1 with
    | .error e => ⟨pre ++ [Reply.lookupFailed p.1 e], [p.1], false, false⟩
    | .ok str => ⟨pre ++ [Reply.lineText str], [p.1], false, false⟩
  else ⟨[Reply.invalidRequest line], [], false, false⟩

/-- The scanner loop of handleConnection over the received command lines:
the replies of each command, in arrival order, until a command breaks the
loop. -/
def handleConn (lk : Int → Except LookupErr (List Nat)) :
    List (List Nat) → List Reply
  | [] => []
  | l :: rest =>
    let r := handleLine lk l
    if r.brk then r.replies else r.replies ++ handleConn lk rest

/-- A two-line demonstration file: the records of the lines a and bb. -/
def demoRecs : List LineRec := [[97], [98, 98]]

/-- The full anchor cache for demoRecs. -/
def demoCache : List lineInfo := [⟨0, 0⟩, ⟨1, 2⟩]

/-- The lookup capability of the demonstration file, as handed to the
connection layer. -/
def demoLk : Int → Except LookupErr (List Nat) :=
  Lookup (fileBytes demoRecs) demoCache 2

/-- The bytes of the command line GET abc. -/
def getAbcBytes : List Nat := [71, 69, 84, 32, 97, 98, 99]

/-- A seven-line demonstration file of one-byte records. -/
def demoRecs7 : List LineRec :=
  [[120], [120], [120], [120], [120], [120], [120]]

/-- Dropping the length of the left part of an append, plus m, drops
into the right part. -/
theorem drop_append_len (xs ys : List Nat) (m : Nat) :
    (xs ++ ys).drop (xs.length + m) = ys.drop m := by
  induction xs with
  | nil => simp
  | cons a xs ih => simp [Nat.succ_add, ih]

/-- Seeking to the start offset of line j lands at the byte stream of the
records from j on. -/
theorem fileBytes_drop (recs : List LineRec) (j : Nat) :
    (fileBytes recs).drop (lineStart recs j) = fileBytes (recs.drop j) := by
  induction recs generalizing j with
  | nil => cases j <;> simp [fileBytes, lineStart]
  | cons r rs ih =>
    cases j with
    | zero => simp [lineStart]
    | succ j =>
      have e : fileBytes (r :: rs) = (r ++ [10]) ++ fileBytes rs := by
        simp [fileBytes]
      have hl : lineStart (r :: rs) (j + 1) =
          (r ++ [10]).length + lineStart rs j := by
        simp [lineStart]
      rw [e, hl, drop_append_len, ih]
      rfl

/-- Reading one line from the head of a well formed byte stream yields
the first record with its newline, and the rest of the stream. -/
theorem readRec_append (r bs : List Nat) (h : 10 ∉ r) :
    readRec (r ++ 10 :: bs) = some (r ++ [10], bs) := by
  induction r with
  | nil => simp [readRec]
  | cons a r ih =>
    have ha : a ≠ 10 := by
      intro e
      exact h (by simp [e])
    have hr : 10 ∉ r := fun hm => h (by simp [hm])
    simp [readRec, ha, ih hr]

/-- The scan loop only ever produces a successful read or a read failure. -/
theorem scanLoop_shape (cnt : Nat) : ∀ bs : List Nat,
    isOutOfRangeErr (scanLoop bs cnt) = false ∧
      isUnexpectedErr (scanLoop bs cnt) = false := by
  induction cnt with
  | zero =>
    intro bs
    simp [scanLoop, isOutOfRangeErr, isUnexpectedErr]
  | succ c ih =>
    intro bs
    simp only [scanLoop]
    cases hr : readRec bs with
    | none => simp [isOutOfRangeErr, isUnexpectedErr]
    | some p =>
      by_cases hc : c = 0
      · simp [hc, isOutOfRangeErr, isUnexpectedErr]
      · simpa [hc] using ih p.2

/-- Scanning c + 1 lines from the start of line j returns line j + c with
its newline. -/
theorem scan_from (recs : List LineRec) (hwf : WFRecs recs) :
    ∀ (c j : Nat), j + c < recs.length →
      scanLoop (fileBytes (recs.drop j)) (c + 1) =
        Except.ok (recs.getD (j + c) [] ++ [10]) := by
  intro c
  induction c with
  | zero =>
    intro j hj
    have hjl : j < recs.length := by omega
    rw [List.drop_eq_getElem_cons hjl]
    have hmem : recs[j] ∈ recs := List.getElem_mem hjl
    have h10 : 10 ∉ recs[j] := hwf _ hmem
    show scanLoop (fileBytes (recs[j] :: recs.drop (j + 1))) 1 = _
    rw [show fileBytes (recs[j] :: recs.drop (j + 1)) =
      recs[j] ++ 10 :: fileBytes (recs.drop (j + 1)) from rfl]
    simp [scanLoop, readRec_append _ _ h10, List.getD_eq_getElem recs [] hjl,
      List.getElem?_eq_getElem hjl]
  | succ c ih =>
    intro j hj
    have hjl : j < recs.length := by omega
    rw [List.drop_eq_getElem_cons hjl]
    have hmem : recs[j] ∈ recs := List.getElem_mem hjl
    have h10 : 10 ∉ recs[j] := hwf _ hmem
    show scanLoop (fileBytes (recs[j] :: recs.drop (j + 1))) (c + 1 + 1) = _
    rw [show fileBytes (recs[j] :: recs.drop (j + 1)) =
      recs[j] ++ 10 :: fileBytes (recs.drop (j + 1)) from rfl]
    have step := ih (j + 1) (by omega)
    simp only [scanLoop, readRec_append _ _ h10]
    have : j + 1 + c = j + (c + 1) := by omega
    simp only [this] at step
    simpa [Nat.succ_ne_zero] using step

/-- Scanning from the true start offset of line j up to line t returns
line t with its newline. -/
theorem scan_from_line (recs : List LineRec) (hwf : WFRecs recs) (j t : Nat)
    (hjt : j ≤ t) (ht : t < recs.length) :
    scanLoop ((fileBytes recs).drop (lineStart recs j)) (t + 1 - j) =
      Except.ok (recs.getD t [] ++ [10]) := by
  rw [fileBytes_drop]
  obtain ⟨c, rfl⟩ : ∃ c, t = j + c := ⟨t - j, by omega⟩
  have hc : j + c + 1 - j = c + 1 := by omega
  rw [hc]
  exact scan_from recs hwf c j (by omega)

/-- Every anchor the binary search returns has line number at most the
searched target: both return sites of findLineInfo check this. -/
theorem findLineInfo_le_aux :
    ∀ (N : Nat) (s : List lineInfo) (t : Nat) (li : lineInfo),
      s.length ≤ N → findLineInfo t s = some li → li.lineno ≤ t := by
  intro N
  induction N with
  | zero =>
    intro s t li hN h
    have hs : s = [] := List.length_eq_zero.mp (by omega)
    subst hs
    rw [findLineInfo.eq_def] at h
    simp at h
  | succ N ih =>
    intro s t li hN h
    rw [findLineInfo.eq_def] at h
    by_cases h0 : s.length = 0
    · simp [h0] at h
    · by_cases h1 : s.length = 1
      · rw [if_neg h0, if_pos h1] at h
        split at h
        · next hc =>
          cases h
          omega
        · cases h
      · rw [if_neg h0, if_neg h1] at h
        simp only at h
        split at h
        · next heq =>
          cases h
          omega
        · split at h
          · exact ih _ _ _ (by simp [List.length_take]; omega) h
          · exact ih _ _ _ (by simp [List.length_drop]; omega) h

/-- The binary search only returns elements of the searched list. -/
theorem findLineInfo_mem_aux :
    ∀ (N : Nat) (s : List lineInfo) (t : Nat) (li : lineInfo),
      s.length ≤ N → findLineInfo t s = some li → li ∈ s := by
  intro N
  induction N with
  | zero =>
    intro s t li hN h
    have hs : s = [] := List.length_eq_zero.mp (by omega)
    subst hs
    rw [findLineInfo.eq_def] at h
    simp at h
  | succ N ih =>
    intro s t li hN h
    rw [findLineInfo.eq_def] at h
    by_cases h0 : s.length = 0
    · simp [h0] at h
    · by_cases h1 : s.length = 1
      · rw [if_neg h0, if_pos h1] at h
        have hlt : 0 < s.length := by omega
        split at h
        · cases h
          rw [List.getD_eq_getElem s default hlt]
          exact List.getElem_mem hlt
        · cases h
      · rw [if_neg h0, if_neg h1] at h
        simp only at h
        have hmidlt : s.length / 2 < s.length := by omega
        split at h
        · cases h
          rw [List.getD_eq_getElem s default hmidlt]
          exact List.getElem_mem hmidlt
        · split at h
          · exact List.take_subset _ s
              (ih _ _ _ (by simp [List.length_take]; omega) h)
          · exact List.drop_subset _ s
              (ih _ _ _ (by simp [List.length_drop]; omega) h)

/-- Full characterization of the binary search on a strictly sorted
cache: it returns none exactly when every anchor has line number at least
the target (including the case of the smallest anchor equal to the
target), and otherwise returns the greatest anchor at most the target. -/
theorem findLineInfo_char_aux :
    ∀ (N : Nat) (s : List lineInfo) (t : Nat),
      s.length ≤ N → s.Pairwise (fun x y => x.lineno < y.lineno) →
      ((findLineInfo t s = none ↔ ∀ a ∈ s, t ≤ a.lineno) ∧
        (∀ li, findLineInfo t s = some li →
          li ∈ s ∧ li.lineno ≤ t ∧
            ∀ a ∈ s, a.lineno ≤ t → a.lineno ≤ li.lineno)) := by
  intro N
  induction N with
  | zero =>
    intro s t hN _
    have hs : s = [] := List.length_eq_zero.mp (by omega)
    subst hs
    rw [findLineInfo.eq_def]
    simp
  | succ N ih =>
    intro s t hN hsort
    have hpi := List.pairwise_iff_getElem.mp hsort
    rw [findLineInfo.eq_def]
    by_cases h0 : s.length = 0
    · have hs : s = [] := List.length_eq_zero.mp h0
      subst hs
      simp
    · by_cases h1 : s.length = 1
      · rw [if_neg h0, if_pos h1]
        have hlt : 0 < s.length := by omega
        rw [List.getD_eq_getElem s default hlt]
        constructor
        · constructor
          · intro hnone
            split at hnone
            · cases hnone
            · next hc =>
              intro a ha
              obtain ⟨i, hi, rfl⟩ := List.mem_iff_getElem.mp ha
              have : i = 0 := by omega
              subst this
              omega
          · intro hall
            have h := hall s[0] (List.getElem_mem hlt)
            rw [if_neg (by omega)]
        · intro li hli
          split at hli
          · next hc =>
            cases hli
            refine ⟨List.getElem_mem hlt, by omega, ?_⟩
            intro a ha _
            obtain ⟨i, hi, rfl⟩ := List.mem_iff_getElem.mp ha
            have : i = 0 := by omega
            subst this
            omega
          · cases hli
      · rw [if_neg h0, if_neg h1]
        simp only
        have hn2 : 2 ≤ s.length := by omega
        have hmid0 : 0 < s.length / 2 := by omega
        have hmidlt : s.length / 2 < s.length := by omega
        rw [List.getD_eq_getElem s default hmidlt]
        by_cases ht : t = s[s.length / 2].lineno
        · rw [if_pos ht]
          constructor
          · constructor
            · intro hnone
              cases hnone
            · intro hall
              have h0m := hpi 0 (s.length / 2) (by omega) hmidlt hmid0
              have := hall s[0] (List.getElem_mem (by omega))
              omega
          · intro li hli
            cases hli
            refine ⟨List.getElem_mem hmidlt, by omega, ?_⟩
            intro a ha hat
            obtain ⟨i, hi, rfl⟩ := List.mem_iff_getElem.mp ha
            rcases Nat.lt_trichotomy i (s.length / 2) with hc | hc | hc
            · have := hpi i (s.length / 2) hi hmidlt hc
              omega
            · subst hc
              omega
            · have := hpi (s.length / 2) i hmidlt hi hc
              omega
        · rw [if_neg ht]
          by_cases hlt : t < s[s.length / 2].lineno
          · rw [if_pos hlt]
            have hsub : List.Sublist (s.take (s.length / 2)) s := List.take_sublist _ s
            have ihT := ih (s.take (s.length / 2)) t
              (by simp [List.length_take]; omega) (hsort.sublist hsub)
            have htlen : (s.take (s.length / 2)).length = s.length / 2 := by
              simp [List.length_take]
              omega
            constructor
            · rw [ihT.1]
              constructor
              · intro hall a ha
                obtain ⟨i, hi, rfl⟩ := List.mem_iff_getElem.mp ha
                rcases Nat.lt_or_ge i (s.length / 2) with hc | hc
                · have hmemt : s[i] ∈ s.take (s.length / 2) := by
                    have hit : i < (s.take (s.length / 2)).length := by omega
                    have : (s.take (s.length / 2))[i] = s[i] :=
                      List.getElem_take s
                    rw [← this]
                    exact List.getElem_mem hit
                  exact hall _ hmemt
                · rcases Nat.eq_or_lt_of_le hc with hc2 | hc2
                  · subst hc2
                    omega
                  · have := hpi (s.length / 2) i hmidlt hi hc2
                    omega
              · intro hall a ha
                exact hall a (List.take_subset _ s ha)
            · intro li hli
              obtain ⟨hmem, hle, hmax⟩ := ihT.2 li hli
              refine ⟨List.take_subset _ s hmem, hle, ?_⟩
              intro a ha hat
              obtain ⟨i, hi, rfl⟩ := List.mem_iff_getElem.mp ha
              rcases Nat.lt_or_ge i (s.length / 2) with hc | hc
              · have hmemt : s[i] ∈ s.take (s.length / 2) := by
                  have hit : i < (s.take (s.length / 2)).length := by omega
                  have : (s.take (s.length / 2))[i] = s[i] :=
                    List.getElem_take s
                  rw [← this]
                  exact List.getElem_mem hit
                exact hmax _ hmemt hat
              · rcases Nat.eq_or_lt_of_le hc with hc2 | hc2
                · subst hc2
                  omega
                · have := hpi (s.length / 2) i hmidlt hi hc2
                  omega
          · rw [if_neg hlt]
            have hgt : s[s.length / 2].lineno < t := by omega
            have hsub : List.Sublist (s.drop (s.length / 2)) s := List.drop_sublist _ s
            have ihD := ih (s.drop (s.length / 2)) t
              (by simp [List.length_drop]; omega) (hsort.sublist hsub)
            have hdlen : 0 < (s.drop (s.length / 2)).length := by
              simp [List.length_drop]
              omega
            have hd0 : (s.drop (s.length / 2))[0] = s[s.length / 2] := by
              rw [List.getElem_drop s]
              congr 1
            have hmidmem : s[s.length / 2] ∈ s.drop (s.length / 2) := by
              rw [← hd0]
              exact List.getElem_mem hdlen
            constructor
            · constructor
              · intro hnone
                have := (ihD.1.mp hnone) _ hmidmem
                omega
              · intro hall
                have := hall s[s.length / 2] (List.getElem_mem hmidlt)
                omega
            · intro li hli
              obtain ⟨hmem, hle, hmax⟩ := ihD.2 li hli
              have hmvle : s[s.length / 2].lineno ≤ li.lineno :=
                hmax _ hmidmem (by omega)
              refine ⟨List.drop_subset _ s hmem, hle, ?_⟩
              intro a ha hat
              obtain ⟨i, hi, rfl⟩ := List.mem_iff_getElem.mp ha
              rcases Nat.lt_or_ge i (s.length / 2) with hc | hc
              · have := hpi i (s.length / 2) hi hmidlt hc
                omega
              · have hmemd : s[i] ∈ s.drop (s.length / 2) := by
                  have hid : i - s.length / 2 < (s.drop (s.length / 2)).length := by
                    simp [List.length_drop]
                    omega
                  have : (s.drop (s.length / 2))[i - s.length / 2] = s[i] := by
                    rw [List.getElem_drop s]
                    congr 1
                    omega
                  rw [← this]
                  exact List.getElem_mem hid
                exact hmax _ hmemd hat

/-- Once the line counter reaches numLines the loop emits nothing more. -/
theorem plLoop_stop (n k : Nat) (bs ex : List Nat) (s o ℓ : Nat)
    (acc : List lineInfo) (h : n ≤ ℓ) :
    plLoop n k bs ex s o ℓ acc = acc := by
  cases bs with
  | nil => rfl
  | cons b rest => simp [plLoop, h]

/-- Reading the bytes of a record (no newline among them) leaves the
whole loop state unchanged except the read offset. -/
theorem plLoop_skip_bytes (n k : Nat) :
    ∀ (r : List Nat), 10 ∉ r →
      ∀ (bs ex : List Nat) (s o ℓ : Nat) (acc : List lineInfo),
        plLoop n k (r ++ bs) ex s o ℓ acc =
          plLoop n k bs ex s (o + r.length) ℓ acc := by
  intro r
  induction r with
  | nil =>
    intro _ bs ex s o ℓ acc
    simp
  | cons a r ih =>
    intro h10 bs ex s o ℓ acc
    have ha : a ≠ 10 := by
      intro e
      exact h10 (by simp [e])
    have hr : 10 ∉ r := fun hm => h10 (by simp [hm])
    by_cases hnl : n ≤ ℓ
    · rw [plLoop_stop n k _ ex s o ℓ acc hnl,
        plLoop_stop n k bs ex s (o + (a :: r).length) ℓ acc hnl]
    · show plLoop n k (a :: (r ++ bs)) ex s o ℓ acc = _
      rw [show plLoop n k (a :: (r ++ bs)) ex s o ℓ acc =
        plLoop n k (r ++ bs) ex s (o + 1) ℓ acc by simp [plLoop, hnl, ha]]
      rw [ih hr bs ex s (o + 1) ℓ acc]
      congr 1
      simp
      omega

/-- The byte level build loop agrees with the record level restatement on
a well formed file, with the emitted anchors appended to the accumulator. -/
theorem plLoop_eq_plRecs (n k : Nat) :
    ∀ (rs : List LineRec), WFRecs rs →
      ∀ (ex : List Nat) (o ℓ : Nat) (acc : List lineInfo),
        plLoop n k (fileBytes rs) ex o o ℓ acc =
          acc ++ plRecs n k rs ex o ℓ := by
  intro rs
  induction rs with
  | nil =>
    intro _ ex o ℓ acc
    simp [fileBytes, plLoop, plRecs]
  | cons r rs ih =>
    intro hwf ex o ℓ acc
    have h10 : 10 ∉ r := hwf r (by simp)
    have hwf' : WFRecs rs := fun x hx => hwf x (by simp [hx])
    by_cases hnl : n ≤ ℓ
    · rw [show fileBytes (r :: rs) = r ++ 10 :: fileBytes rs from rfl,
        plLoop_skip_bytes n k r h10 _ ex o o ℓ acc,
        plLoop_stop n k _ ex o (o + r.length) ℓ acc hnl]
      simp [plRecs, hnl]
    · rw [show fileBytes (r :: rs) = r ++ 10 :: fileBytes rs from rfl,
        plLoop_skip_bytes n k r h10 _ ex o o ℓ acc]
      by_cases hcond : ℓ % k = 0 ∨ ex.head? = some ℓ
      · rw [show plLoop n k (10 :: fileBytes rs) ex o (o + r.length) ℓ acc =
          plLoop n k (fileBytes rs) (if ex.head? = some ℓ then ex.tail else ex)
            (o + r.length + 1) (o + r.length + 1) (ℓ + 1)
            (acc ++ [⟨ℓ, o⟩]) by simp [plLoop, hnl, hcond]]
        rw [ih hwf']
        simp only [plRecs, if_neg hnl]
        rw [if_pos hcond]
        simp
      · rw [show plLoop n k (10 :: fileBytes rs) ex o (o + r.length) ℓ acc =
          plLoop n k (fileBytes rs) ex
            (o + r.length + 1) (o + r.length + 1) (ℓ + 1) acc by
            simp [plLoop, hnl, hcond]]
        rw [ih hwf']
        simp only [plRecs, if_neg hnl]
        rw [if_neg hcond]
        have hue : ¬(ex.head? = some ℓ) := fun h => hcond (Or.inr h)
        rw [if_neg hue]

/-- Unfolding uniCount one step from the front of the interval. -/
theorem uniCount_front (k ell m : Nat) :
    uniCount k ell (m + 1) =
      (if ell % k = 0 then 1 else 0) + uniCount k (ell + 1) m := rfl

/-- The record level loop emits one anchor per uniform line plus one per
extra, provided the extras are strictly sorted, in range, not uniform,
and the records cover the whole interval. -/
theorem plRecs_length (n k : Nat) :
    ∀ (rs : List LineRec) (ex : List Nat) (o ℓ : Nat),
      ex.Pairwise (· < ·) →
      (∀ e ∈ ex, ℓ ≤ e ∧ e < n ∧ e % k ≠ 0) →
      n ≤ ℓ + rs.length →
      (plRecs n k rs ex o ℓ).length = uniCount k ℓ (n - ℓ) + ex.length := by
  intro rs
  induction rs with
  | nil =>
    intro ex o ℓ _ hmem hlen
    have hex : ex = [] := by
      cases ex with
      | nil => rfl
      | cons e ex' =>
        have := hmem e (by simp)
        simp at hlen
        omega
    subst hex
    have hz : n - ℓ = 0 := by simp at hlen; omega
    simp [plRecs, hz, uniCount]
  | cons r rs ih =>
    intro ex o ℓ hsort hmem hlen
    by_cases hnl : n ≤ ℓ
    · have hex : ex = [] := by
        cases ex with
        | nil => rfl
        | cons e ex' =>
          have := hmem e (by simp)
          omega
      subst hex
      have hz : n - ℓ = 0 := by omega
      simp [plRecs, hnl, hz, uniCount]
    · have hml : n - ℓ = (n - (ℓ + 1)) + 1 := by omega
      have hu : uniCount k ℓ (n - ℓ) =
          (if ℓ % k = 0 then 1 else 0) + uniCount k (ℓ + 1) (n - (ℓ + 1)) := by
        rw [hml, uniCount_front]
      simp only [plRecs, if_neg hnl]
      by_cases hm : ℓ % k = 0
      · have hue : ¬(ex.head? = some ℓ) := by
          intro h
          cases ex with
          | nil => simp at h
          | cons e ex' =>
            simp at h
            exact (hmem e (by simp)).2.2 (by rw [h]; exact hm)
        rw [if_neg hue, if_pos (Or.inl hm)]
        have hex1 : ∀ e ∈ ex, ℓ + 1 ≤ e ∧ e < n ∧ e % k ≠ 0 := by
          intro e he
          have h1 := hmem e he
          have hne : e ≠ ℓ := by
            intro hq
            subst hq
            exact h1.2.2 hm
          exact ⟨by omega, h1.2.1, h1.2.2⟩
        rw [List.length_cons,
          ih ex (o + r.length + 1) (ℓ + 1) hsort hex1 (by simp at hlen ⊢; omega)]
        rw [hu, if_pos hm]
        omega
      · by_cases hue : ex.head? = some ℓ
        · rw [if_pos hue, if_pos (Or.inr hue)]
          obtain ⟨e, ex', rfl⟩ : ∃ e ex', ex = e :: ex' := by
            cases ex with
            | nil => simp at hue
            | cons e ex' => exact ⟨e, ex', rfl⟩
          have he : e = ℓ := by simpa using hue
          subst he
          have hsort' : ex'.Pairwise (· < ·) := (List.pairwise_cons.mp hsort).2
          have hex1 : ∀ x ∈ ex', e + 1 ≤ x ∧ x < n ∧ x % k ≠ 0 := by
            intro x hx
            have h1 := hmem x (by simp [hx])
            have h2 := (List.pairwise_cons.mp hsort).1 x hx
            exact ⟨by omega, h1.2.1, h1.2.2⟩
          rw [List.length_cons, List.tail_cons,
            ih ex' (o + r.length + 1) (e + 1) hsort' hex1
              (by simp at hlen ⊢; omega)]
          rw [hu, if_neg hm]
          simp
          omega
        · rw [if_neg hue, if_neg (by
            intro h
            rcases h with h | h
            · exact hm h
            · exact hue h)]
          have hex1 : ∀ x ∈ ex, ℓ + 1 ≤ x ∧ x < n ∧ x % k ≠ 0 := by
            intro x hx
            have h1 := hmem x hx
            have hne : x ≠ ℓ := by
              intro hq
              subst hq
              cases ex with
              | nil => cases hx
              | cons e ex' =>
                rcases List.mem_cons.mp hx with h | h
                · subst h
                  exact hue (by simp)
                · have h2 := (List.pairwise_cons.mp hsort).1 x h
                  have h3 := hmem e (by simp)
                  omega
            exact ⟨by omega, h1.2.1, h1.2.2⟩
          rw [ih ex (o + r.length + 1) (ℓ + 1) hsort hex1
            (by simp at hlen ⊢; omega)]
          rw [hu, if_neg hm]
          omega

/-- Every anchor the record level loop emits carries its line index and
the true offset of that line, and the emitted line numbers are strictly
increasing, for any extras whatsoever. -/
theorem plRecs_anchors (n k : Nat) :
    ∀ (rs : List LineRec) (ex : List Nat) (o ℓ : Nat),
      (∀ a ∈ plRecs n k rs ex o ℓ,
          ℓ ≤ a.lineno ∧ a.lineno < n ∧
            a.offset = o + lineStart rs (a.lineno - ℓ)) ∧
        (plRecs n k rs ex o ℓ).Pairwise (fun x y => x.lineno < y.lineno) := by
  intro rs
  induction rs with
  | nil =>
    intro ex o ℓ
    simp [plRecs]
  | cons r rs ih =>
    intro ex o ℓ
    by_cases hnl : n ≤ ℓ
    · simp [plRecs, hnl]
    · have ihh := ih (if ex.head? = some ℓ then ex.tail else ex)
        (o + r.length + 1) (ℓ + 1)
      have hrest : ∀ a ∈ plRecs n k rs
          (if ex.head? = some ℓ then ex.tail else ex) (o + r.length + 1) (ℓ + 1),
          ℓ ≤ a.lineno ∧ a.lineno < n ∧
            a.offset = o + lineStart (r :: rs) (a.lineno - ℓ) := by
        intro a ha
        have h1 := ihh.1 a ha
        refine ⟨by omega, h1.2.1, ?_⟩
        have hj : a.lineno - ℓ = (a.lineno - (ℓ + 1)) + 1 := by omega
        rw [hj]
        show a.offset = o + (r.length + 1 + lineStart rs (a.lineno - (ℓ + 1)))
        omega
      simp only [plRecs, if_neg hnl]
      by_cases hcond : ℓ % k = 0 ∨ ex.head? = some ℓ
      · rw [if_pos hcond]
        constructor
        · intro a ha
          rcases List.mem_cons.mp ha with h | h
          · subst h
            refine ⟨Nat.le_refl _, by show ℓ < n; omega, ?_⟩
            simp [lineStart]
          · exact hrest a h
        · rw [List.pairwise_cons]
          refine ⟨fun a ha => ?_, ihh.2⟩
          have := (ihh.1 a ha).1
          show ℓ < a.lineno
          omega
      · rw [if_neg hcond]
        exact ⟨hrest, ihh.2⟩

/-- Unfolding uniCount one step from the back of the interval. -/
theorem uniCount_back (k : Nat) :
    ∀ (m ell : Nat), uniCount k ell (m + 1) =
      uniCount k ell m + (if (ell + m) % k = 0 then 1 else 0) := by
  intro m
  induction m with
  | zero =>
    intro ell
    simp [uniCount]
  | succ m ih =>
    intro ell
    rw [uniCount_front]
    rw [ih (ell + 1)]
    rw [uniCount_front]
    have e : ell + 1 + m = ell + (m + 1) := by omega
    rw [e]
    split_ifs <;> omega

/-- uniCount against the closed ceiling form, stated addition only. -/
theorem uniCount_div (k : Nat) (hk : 0 < k) :
    ∀ (m ell : Nat),
      uniCount k ell m + (ell + k - 1) / k = (ell + m + k - 1) / k := by
  intro m
  induction m with
  | zero =>
    intro ell
    simp [uniCount]
  | succ m ih =>
    intro ell
    have ihe := ih (ell + 1)
    have e1 : ell + 1 + k - 1 = ell + k := by omega
    have e2 : ell + 1 + m + k - 1 = ell + m + k := by omega
    rw [e1, e2] at ihe
    have e3 : ell + (m + 1) + k - 1 = ell + m + k := by omega
    rw [uniCount_front, e3]
    have h1 : ell + k = ell + k - 1 + 1 := by omega
    have step : (ell + k) / k = (ell + k - 1) / k + if ell % k = 0 then 1 else 0 := by
      rw [h1, Nat.succ_div]
      have h2 : (k ∣ ell + k - 1 + 1) ↔ (ell % k = 0) := by
        rw [← h1, Nat.dvd_add_self_right, Nat.dvd_iff_mod_eq_zero]
      have e4 : ell + k - 1 + 1 - 1 = ell + k - 1 := by omega
      rw [e4]
      by_cases hd : ell % k = 0
      · rw [if_pos hd, if_pos (h2.mpr hd)]
      · rw [if_neg hd, if_neg (fun hq => hd (h2.mp hq))]
    split_ifs at step ⊢ <;> omega

/-- The number of multiples of k below m, as a ceiling. -/
theorem uniCount_eq_ceil (k : Nat) (hk : 0 < k) (m : Nat) :
    uniCount k 0 m = (m + k - 1) / k := by
  have h := uniCount_div k hk m 0
  have e1 : 0 + k - 1 = k - 1 := by omega
  have e2 : 0 + m + k - 1 = m + k - 1 := by omega
  rw [e1, e2] at h
  have h3 : (k - 1) / k = 0 := Nat.div_eq_of_lt (by omega)
  omega

/-- The filtered non-multiples among the first m naturals. -/
theorem range_filter_length (k : Nat) :
    ∀ m, ((List.range m).filter (fun v => v % k != 0)).length =
      m - uniCount k 0 m ∧ uniCount k 0 m ≤ m := by
  intro m
  induction m with
  | zero => simp [uniCount]
  | succ m ih =>
    have hu : uniCount k 0 (m + 1) =
        uniCount k 0 m + (if m % k = 0 then 1 else 0) := by
      have h := uniCount_back k m 0
      simpa using h
    constructor
    · rw [List.range_succ, List.filter_append]
      simp only [List.length_append, hu]
      by_cases hm : m % k = 0
      · have hb : (m % k != 0) = false := by simp [hm]
        have hf : (List.filter (fun v => v % k != 0) [m]).length = 0 := by
          simp [List.filter, hb]
        rw [hf, if_pos hm]
        omega
      · have hb : (m % k != 0) = true := by simpa using hm
        have hf : (List.filter (fun v => v % k != 0) [m]).length = 1 := by
          simp [List.filter, hb]
        rw [hf, if_neg hm]
        omega
    · rw [hu]
      by_cases hm : m % k = 0
      · rw [if_pos hm]
        omega
      · rw [if_neg hm]
        omega

/-- A ceiling bounded through a multiple bound. -/
theorem ceil_le_of_le_mul (n k c : Nat) (hk : 0 < k) (h : n ≤ c * k) :
    (n + k - 1) / k ≤ c := by
  have h1 : (n + k - 1) / k ≤ (c * k + (k - 1)) / k := by
    apply Nat.div_le_div_right
    omega
  have h2 : (c * k + (k - 1)) / k = c + (k - 1) / k := by
    rw [Nat.mul_comm c k]
    exact Nat.mul_add_div hk c (k - 1)
  have h3 : (k - 1) / k = 0 := Nat.div_eq_of_lt (by omega)
  omega

/-- The ceiling of n by k, as floor plus an indicator of the remainder. -/
theorem ceil_div_eq (k : Nat) (hk : 0 < k) (n : Nat) :
    (n + k - 1) / k = n / k + if n % k = 0 then 0 else 1 := by
  by_cases h : n % k = 0
  · rw [if_pos h]
    have hd := Nat.div_add_mod n k
    by_cases hq : n = 0
    · subst hq
      have h3 : (k - 1) / k = 0 := Nat.div_eq_of_lt (by omega)
      simp [h3]
    · have e1 : n + k - 1 = k * (n / k) + (k - 1) := by omega
      rw [e1, Nat.mul_add_div hk]
      have h3 : (k - 1) / k = 0 := Nat.div_eq_of_lt (by omega)
      omega
  · rw [if_neg h]
    have hd := Nat.div_add_mod n k
    have hm : n % k < k := Nat.mod_lt n hk
    have e1 : n + k - 1 = k * (n / k) + (n % k + k - 1) := by omega
    rw [e1, Nat.mul_add_div hk]
    have e2 : n % k + k - 1 = (n % k - 1) + k := by omega
    rw [e2, Nat.add_div_right _ hk]
    have h3 : (n % k - 1) / k = 0 := Nat.div_eq_of_lt (by omega)
    omega

/-- The skip factor is positive whenever the capacity fits the file. -/
theorem skipOf_pos (n c : Nat) (hc : 1 ≤ c) (hcn : c ≤ n) : 0 < skipOf n c := by
  unfold skipOf
  have := (Nat.one_le_div_iff hc).mpr hcn
  split <;> omega

/-- The file length is at most capacity times the skip factor. -/
theorem le_mul_skipOf (n c : Nat) (hc : 1 ≤ c) (_hcn : c ≤ n) :
    n ≤ c * skipOf n c := by
  unfold skipOf
  have h1 := Nat.div_add_mod n c
  have h2 := Nat.mod_lt n (by omega : 0 < c)
  by_cases hm : n % c = 0
  · rw [if_neg (by simpa using hm)]
    omega
  · rw [if_pos hm]
    have h3 : c * (n / c + 1) = c * (n / c) + c := Nat.mul_succ c (n / c)
    omega

/-- The ceiling of the file length by a positive k is monotone in the
numerator; applied with capacity at most the length. -/
theorem ceil_mono_num (a b k : Nat) (h : a ≤ b) :
    (a + k - 1) / k ≤ (b + k - 1) / k := by
  apply Nat.div_le_div_right
  omega

/-- The expected cache size computed by getUnusedSlotCount is exactly the
ceiling of lineCnt by the skip factor. -/
theorem expected_eq (n c : Nat) (hc : 1 ≤ c) (hcn : c ≤ n) :
    (if c < n then
       if n % c = 0 then c
       else
         if n % (n / c + 1) ≠ 0 then n / (n / c + 1) + 1 else n / (n / c + 1)
     else c) = (n + skipOf n c - 1) / skipOf n c := by
  by_cases hlt : c < n
  · rw [if_pos hlt]
    by_cases hm : n % c = 0
    · rw [if_pos hm]
      unfold skipOf
      rw [if_neg (by simpa using hm)]
      have hq : 0 < n / c := (Nat.one_le_div_iff hc).mpr hcn
      have hd := Nat.div_add_mod n c
      have hcm : (n / c) * c = c * (n / c) := Nat.mul_comm _ _
      have e1 : n + n / c - 1 = (n / c) * c + (n / c - 1) := by omega
      rw [e1, Nat.mul_add_div hq]
      have h3 : (n / c - 1) / (n / c) = 0 := Nat.div_eq_of_lt (by omega)
      omega
    · rw [if_neg hm]
      unfold skipOf
      rw [if_pos hm]
      have hk1 : 0 < n / c + 1 := Nat.succ_pos _
      have hceil := ceil_div_eq (n / c + 1) hk1 n
      by_cases hm2 : n % (n / c + 1) = 0
      · rw [if_neg (by simpa using hm2), hceil, if_pos hm2]
        omega
      · rw [if_pos hm2, hceil, if_neg hm2]
  · rw [if_neg hlt]
    have hcn2 : c = n := by omega
    subst hcn2
    unfold skipOf
    rw [if_neg (by simp [Nat.mod_self])]
    rw [Nat.div_self (by omega)]
    simp

/-- A weakly sorted list of naturals without duplicates is strictly
sorted. -/
theorem pairwise_lt_of_sorted_nodup (l : List Nat)
    (hs : l.Pairwise (· ≤ ·)) (hn : l.Nodup) : l.Pairwise (· < ·) := by
  induction l with
  | nil => simp
  | cons a l ih =>
    rw [List.pairwise_cons] at hs ⊢
    rw [List.nodup_cons] at hn
    refine ⟨?_, ih hs.2 hn.2⟩
    intro b hb
    rcases Nat.lt_or_ge a b with h | h
    · exact h
    · have h1 := hs.1 b hb
      have h2 : a = b := by omega
      subst h2
      exact absurd hb hn.1

/-- What the extras selection produces when the random slots are a
permutation of the slot indices and enough non-uniform candidates exist:
exactly freeSlots strictly sorted values, all below the slot count and
none divisible by the skip factor. -/
theorem pickExtras_spec (m k : Nat) (randSlots : List Nat) (freeSlots : Int)
    (hperm : randSlots.Perm (List.range m))
    (hfs : freeSlots.toNat ≤ m - uniCount k 0 m) :
    (pickExtras randSlots k freeSlots).length = freeSlots.toNat ∧
      (pickExtras randSlots k freeSlots).Pairwise (· < ·) ∧
      ∀ e ∈ pickExtras randSlots k freeSlots, e < m ∧ e % k ≠ 0 := by
  unfold pickExtras
  by_cases hpos : 0 < freeSlots
  · rw [if_pos hpos]
    have hfilp : (randSlots.filter (fun v => v % k != 0)).Perm
        ((List.range m).filter (fun v => v % k != 0)) := hperm.filter _
    have hflen : (randSlots.filter (fun v => v % k != 0)).length =
        m - uniCount k 0 m := by
      rw [hfilp.length_eq, (range_filter_length k m).1]
    have hsortperm := List.perm_insertionSort (· ≤ ·)
      ((randSlots.filter (fun v => v % k != 0)).take freeSlots.toNat)
    have hnodup :
        ((randSlots.filter (fun v => v % k != 0)).take freeSlots.toNat).Nodup := by
      apply List.Nodup.sublist (List.take_sublist _ _)
      apply List.Nodup.filter
      exact (hperm.nodup_iff).mpr (List.nodup_range m)
    refine ⟨?_, ?_, ?_⟩
    · rw [hsortperm.length_eq, List.length_take, hflen]
      omega
    · apply pairwise_lt_of_sorted_nodup
      · exact List.sorted_insertionSort (· ≤ ·) _
      · exact (hsortperm.nodup_iff).mpr hnodup
    · intro e he
      have he1 : e ∈ (randSlots.filter (fun v => v % k != 0)).take freeSlots.toNat :=
        hsortperm.mem_iff.mp he
      have he2 : e ∈ randSlots.filter (fun v => v % k != 0) :=
        List.take_subset _ _ he1
      rw [List.mem_filter] at he2
      refine ⟨?_, by simpa using he2.2⟩
      have := hperm.mem_iff.mp he2.1
      exact List.mem_range.mp this
  · rw [if_neg hpos]
    have hz : freeSlots.toNat = 0 := by omega
    simp [hz]

/-- getUnusedSlotCount in closed form: capacity minus the ceiling of the
line count by the skip factor. -/
theorem getUnusedSlotCount_eq (n c : Nat) (hc : 1 ≤ c) (hcn : c ≤ n) :
    getUnusedSlotCount n c =
      (c : Int) - (((n + skipOf n c - 1) / skipOf n c : Nat) : Int) := by
  unfold getUnusedSlotCount
  simp only
  rw [expected_eq n c hc hcn]

/-- The extras drawn for a capacity c cache over an n line file. -/
theorem extras_spec_of_cap (n c : Nat) (randSlots : List Nat)
    (hc : 1 ≤ c) (hcn : c ≤ n) (hperm : randSlots.Perm (List.range c)) :
    (pickExtras randSlots (skipOf n c) (getUnusedSlotCount n c)).length =
      (getUnusedSlotCount n c).toNat ∧
    (pickExtras randSlots (skipOf n c) (getUnusedSlotCount n c)).Pairwise (· < ·) ∧
    ∀ e ∈ pickExtras randSlots (skipOf n c) (getUnusedSlotCount n c),
      e < c ∧ e % skipOf n c ≠ 0 := by
  have hk : 0 < skipOf n c := skipOf_pos n c hc hcn
  have hceille : (n + skipOf n c - 1) / skipOf n c ≤ c :=
    ceil_le_of_le_mul n (skipOf n c) c hk (le_mul_skipOf n c hc hcn)
  have hfs := getUnusedSlotCount_eq n c hc hcn
  have hfsnat : (getUnusedSlotCount n c).toNat =
      c - (n + skipOf n c - 1) / skipOf n c := by
    rw [hfs]
    omega
  apply pickExtras_spec c (skipOf n c) randSlots (getUnusedSlotCount n c) hperm
  rw [hfsnat, uniCount_eq_ceil (skipOf n c) hk c]
  have := ceil_mono_num c n (skipOf n c) hcn
  omega

/-- processLines fills the cache exactly when capacity is at most the
line count. -/
theorem processLines_cap (recs : List LineRec) (c : Nat) (randSlots : List Nat)
    (hwf : WFRecs recs) (hc : 1 ≤ c) (hcn : c ≤ recs.length)
    (hperm : randSlots.Perm (List.range c)) :
    (processLines (fileBytes recs) c recs.length (skipOf recs.length c)
      randSlots).length = c := by
  have hk : 0 < skipOf recs.length c := skipOf_pos recs.length c hc hcn
  have hceille : (recs.length + skipOf recs.length c - 1) / skipOf recs.length c ≤ c :=
    ceil_le_of_le_mul recs.length (skipOf recs.length c) c hk
      (le_mul_skipOf recs.length c hc hcn)
  have hext := extras_spec_of_cap recs.length c randSlots hc hcn hperm
  have hfsnat : (getUnusedSlotCount recs.length c).toNat =
      c - (recs.length + skipOf recs.length c - 1) / skipOf recs.length c := by
    rw [getUnusedSlotCount_eq recs.length c hc hcn]
    omega
  unfold processLines
  simp only
  rw [plLoop_eq_plRecs recs.length (skipOf recs.length c) recs hwf _ 0 0 []]
  simp only [List.nil_append]
  rw [plRecs_length recs.length (skipOf recs.length c) recs _ 0 0 hext.2.1
    (fun e he => ⟨Nat.zero_le e, Nat.lt_of_lt_of_le (hext.2.2 e he).1 hcn,
      (hext.2.2 e he).2⟩)
    (by omega)]
  rw [Nat.sub_zero, uniCount_eq_ceil (skipOf recs.length c) hk recs.length,
    hext.1, hfsnat]
  omega

/-- processLines indexes every line when the cache is as large as the
file. -/
theorem processLines_all (recs : List LineRec) (randSlots : List Nat)
    (hwf : WFRecs recs) :
    (processLines (fileBytes recs) recs.length recs.length 1
      randSlots).length = recs.length := by
  have hfs : getUnusedSlotCount recs.length recs.length = 0 := by
    unfold getUnusedSlotCount
    simp
  unfold processLines
  simp only
  rw [hfs]
  have hpe : pickExtras randSlots 1 0 = [] := by
    unfold pickExtras
    simp
  rw [hpe]
  rw [plLoop_eq_plRecs recs.length 1 recs hwf [] 0 0 []]
  simp only [List.nil_append]
  rw [plRecs_length recs.length 1 recs [] 0 0 (by simp) (by simp) (by omega)]
  rw [Nat.sub_zero, uniCount_eq_ceil 1 (by omega) recs.length]
  simp

/-- Whatever parameters processLines gets, the anchors it emits are
strictly sorted with the true offsets of their lines. -/
theorem processLines_valid (recs : List LineRec) (liLen numLines kk : Nat)
    (randSlots : List Nat) (hwf : WFRecs recs) (hn : numLines = recs.length) :
    ValidCache recs (processLines (fileBytes recs) liLen numLines kk randSlots) := by
  subst hn
  unfold processLines
  simp only
  rw [plLoop_eq_plRecs recs.length kk recs hwf _ 0 0 []]
  simp only [List.nil_append]
  have h := plRecs_anchors recs.length kk recs
    (pickExtras randSlots kk (getUnusedSlotCount recs.length liLen)) 0 0
  constructor
  · exact h.2
  · intro a ha
    have ha2 := h.1 a ha
    refine ⟨ha2.2.1, ?_⟩
    have := ha2.2.2
    simpa using this

/-- Every extra anchor line number is drawn from the random slot list
itself, hence from the slot index range, never from the rest of the file. -/
theorem pickExtras_subset (rs : List Nat) (k : Nat) (f : Int) :
    ∀ e ∈ pickExtras rs k f, e ∈ rs := by
  intro e he
  unfold pickExtras at he
  split at he
  · have h1 := (List.perm_insertionSort (· ≤ ·)
      ((rs.filter (fun v => v % k != 0)).take f.toNat)).mem_iff.mp he
    have h2 := List.take_subset _ _ h1
    exact (List.mem_filter.mp h2).1
  · cases he

/-- C1: for every well formed file and every valid 1-based line number n,
Lookup returns exactly the bytes of the n-th record including its
terminating newline, for any cache satisfying the construction invariant
(sorted anchors with true offsets), whichever anchors it holds. -/
theorem Lookup_roundtrip (recs : List LineRec) (cache : List lineInfo)
    (n : Int) (hwf : WFRecs recs) (hv : ValidCache recs cache)
    (h1 : 1 ≤ n) (h2 : n ≤ (recs.length : Int)) :
    Lookup (fileBytes recs) cache recs.length n =
      Except.ok (recs.getD (n - 1).toNat [] ++ [10]) := by
  unfold Lookup
  rw [if_neg (by omega)]
  simp only
  have htlt : (n - 1).toNat < recs.length := by omega
  cases hfind : findLineInfo (n - 1).toNat cache with
  | none =>
    have h := scan_from_line recs hwf 0 (n - 1).toNat (Nat.zero_le _) htlt
    simpa [lineStart] using h
  | some li =>
    dsimp only
    have hle := findLineInfo_le_aux cache.length cache (n - 1).toNat li
      le_rfl hfind
    rw [if_neg (by omega : ¬(n - 1).toNat < li.lineno)]
    have hmem := findLineInfo_mem_aux cache.length cache (n - 1).toNat li
      le_rfl hfind
    obtain ⟨hlt', hoff⟩ := hv.2 li hmem
    rw [hoff]
    exact scan_from_line recs hwf li.lineno (n - 1).toNat hle htlt

/-- Witness for C1 on the two line demonstration file. -/
theorem Lookup_roundtrip_witness :
    WFRecs demoRecs ∧ ValidCache demoRecs demoCache ∧
      Lookup (fileBytes demoRecs) demoCache demoRecs.length 2 =
        Except.ok (demoRecs.getD ((2 - 1 : Int)).toNat [] ++ [10]) :=
  ⟨by decide, by decide,
    Lookup_roundtrip demoRecs demoCache 2 (by decide) (by decide) (by decide)
      (by decide)⟩

/-- C2: for every capacity above zero and every well formed nonempty
file, the anchor sequence built by buildCache has length exactly
min capacity totalLines, whatever permutation the random source yields:
the cache budget is fully used. -/
theorem buildCache_fully_used (recs : List LineRec) (cap : Int)
    (randSlots : List Nat) (hwf : WFRecs recs) (_hn : 0 < recs.length)
    (hcap : 0 < cap)
    (hperm : randSlots.Perm (List.range (min cap.toNat recs.length))) :
    ∃ c, buildCache (fileBytes recs) recs.length cap randSlots = some c ∧
      c.length = min cap.toNat recs.length := by
  unfold buildCache
  by_cases hlt : (recs.length : Int) < cap
  · rw [if_pos hlt]
    refine ⟨_, rfl, ?_⟩
    have hm : min cap.toNat recs.length = recs.length := by omega
    rw [hm]
    exact processLines_all recs randSlots hwf
  · rw [if_neg hlt, if_neg (by omega), if_neg (by omega)]
    refine ⟨_, rfl, ?_⟩
    have hm : min cap.toNat recs.length = cap.toNat := by omega
    rw [hm] at hperm ⊢
    exact processLines_cap recs cap.toNat randSlots hwf (by omega) (by omega)
      hperm

/-- Witness for C2 on the two line demonstration file with capacity 2. -/
theorem buildCache_fully_used_witness :
    WFRecs demoRecs ∧ 0 < demoRecs.length ∧ 0 < (2 : Int) ∧
      ([1, 0] : List Nat).Perm (List.range (min (2 : Int).toNat demoRecs.length)) ∧
      ∃ c, buildCache (fileBytes demoRecs) demoRecs.length 2 [1, 0] = some c ∧
        c.length = min (2 : Int).toNat demoRecs.length :=
  ⟨by decide, by decide, by decide, by decide,
    buildCache_fully_used demoRecs 2 [1, 0] (by decide) (by decide) (by decide)
      (by decide)⟩

/-- C3 counterexample: on the cache holding the single anchor for line 0,
searching target 0 returns none although that anchor has line number at
most the target, refuting that none is returned exactly when no anchor
qualifies. -/
theorem findLineInfo_missing_equal_head_cex :
    findLineInfo 0 [⟨0, 0⟩] = none ∧
      (⟨0, 0⟩ : lineInfo) ∈ ([⟨0, 0⟩] : List lineInfo) ∧
      (⟨0, 0⟩ : lineInfo).lineno ≤ 0 := by
  refine ⟨?_, by simp, Nat.le_refl _⟩
  rw [findLineInfo.eq_def]
  simp [List.getD]

/-- C3 (amended): on a strictly sorted cache the binary search returns
none exactly when every anchor has line number at least the target (so
also when the smallest anchor equals the target, although that anchor
qualifies), and any returned anchor is the greatest one with line number
at most the target. -/
theorem findLineInfo_characterization (t : Nat) (c : List lineInfo)
    (hs : c.Pairwise (fun x y => x.lineno < y.lineno)) :
    (findLineInfo t c = none ↔ ∀ a ∈ c, t ≤ a.lineno) ∧
      (∀ li, findLineInfo t c = some li →
        li ∈ c ∧ li.lineno ≤ t ∧
          ∀ a ∈ c, a.lineno ≤ t → a.lineno ≤ li.lineno) :=
  findLineInfo_char_aux c.length c t le_rfl hs

/-- Witness for the amended C3 at target 3 over anchors 0 and 2. -/
theorem findLineInfo_characterization_witness :
    ([⟨0, 0⟩, ⟨2, 7⟩] : List lineInfo).Pairwise
        (fun x y => x.lineno < y.lineno) ∧
      ((findLineInfo 3 [⟨0, 0⟩, ⟨2, 7⟩] = none ↔
          ∀ a ∈ ([⟨0, 0⟩, ⟨2, 7⟩] : List lineInfo), 3 ≤ a.lineno) ∧
        (∀ li, findLineInfo 3 [⟨0, 0⟩, ⟨2, 7⟩] = some li →
          li ∈ ([⟨0, 0⟩, ⟨2, 7⟩] : List lineInfo) ∧ li.lineno ≤ 3 ∧
            ∀ a ∈ ([⟨0, 0⟩, ⟨2, 7⟩] : List lineInfo), a.lineno ≤ 3 →
              a.lineno ≤ li.lineno)) :=
  ⟨by decide, findLineInfo_characterization 3 [⟨0, 0⟩, ⟨2, 7⟩] (by decide)⟩

/-- C4: the GET branch of handleConnection lacks a continue after the
parse failure reply, so the command GET abc produces two replies, the
invalid-line-number error followed by the failed lookup of the ParseInt
error value 0, and the Lookup call is triggered with 0. -/
theorem handleLine_malformed_get_two_replies :
    (handleLine demoLk getAbcBytes).replies =
        [Reply.invalidLineNumber [97, 98, 99],
          Reply.lookupFailed 0 (LookupErr.outOfRange 0 2)] ∧
      (handleLine demoLk getAbcBytes).lookups = [0] := by
  constructor <;> rfl

/-- C5: with a nonpositive capacity and a one line file, buildCache does
not clamp the capacity to 1: it runs into a runtime panic (division by
zero for capacity 0, a negative slice allocation for capacity below 0),
modelled as none. -/
theorem buildCache_nonpositive_capacity_panics :
    buildCache (fileBytes [[97]]) 1 0 [] = none ∧
      buildCache (fileBytes [[97]]) 1 (-1) [] = none :=
  ⟨rfl, rfl⟩

/-- C6 counterexample: with 7 lines and capacity 5 the skip factor is 2
and the deficit is 1; line 5 lies in the file and outside the uniform
set, yet no random slot permutation of the slot index range can ever
select it as an extra, since extras are drawn from the slot indices
0 to 4 only, refuting selection from the whole complement. -/
theorem pickExtras_restricted_domain_cex :
    skipOf 7 5 = 2 ∧ getUnusedSlotCount 7 5 = 1 ∧ 5 < 7 ∧
      5 % skipOf 7 5 ≠ 0 ∧
      ¬∃ rs : List Nat, rs.Perm (List.range 5) ∧
        5 ∈ pickExtras rs (skipOf 7 5) (getUnusedSlotCount 7 5) := by
  refine ⟨rfl, rfl, by omega, by decide, ?_⟩
  rintro ⟨rs, hperm, hmem⟩
  have h1 : 5 ∈ rs := pickExtras_subset rs _ _ 5 hmem
  have h2 := hperm.mem_iff.mp h1
  rw [List.mem_range] at h2
  omega

/-- C6 (amended): when capacity is at most the line count, the extras
are exactly deficit many distinct line numbers, each drawn from the slot
index range 0 to capacity - 1 and not divisible by the skip factor (not
from the whole complement of the uniform set in the file), and the final
anchor count equals capacity exactly. -/
theorem buildCache_extras_amended (recs : List LineRec) (cap : Nat)
    (randSlots : List Nat) (hwf : WFRecs recs) (hc : 1 ≤ cap)
    (hcn : cap ≤ recs.length) (hperm : randSlots.Perm (List.range cap)) :
    (pickExtras randSlots (skipOf recs.length cap)
        (getUnusedSlotCount recs.length cap)).length =
      (getUnusedSlotCount recs.length cap).toNat ∧
      (pickExtras randSlots (skipOf recs.length cap)
        (getUnusedSlotCount recs.length cap)).Pairwise (· < ·) ∧
      (∀ e ∈ pickExtras randSlots (skipOf recs.length cap)
          (getUnusedSlotCount recs.length cap),
        e < cap ∧ e % skipOf recs.length cap ≠ 0) ∧
      ∃ c, buildCache (fileBytes recs) recs.length (cap : Int) randSlots =
          some c ∧ c.length = cap := by
  have hext := extras_spec_of_cap recs.length cap randSlots hc hcn hperm
  refine ⟨hext.1, hext.2.1, hext.2.2, ?_⟩
  unfold buildCache
  rw [if_neg (by omega), if_neg (by omega), if_neg (by omega)]
  refine ⟨_, rfl, ?_⟩
  rw [Int.toNat_natCast]
  exact processLines_cap recs cap randSlots hwf hc hcn hperm

/-- Witness for the amended C6 on a seven line file with capacity 5. -/
theorem buildCache_extras_amended_witness :
    WFRecs demoRecs7 ∧ 1 ≤ 5 ∧ 5 ≤ demoRecs7.length ∧
      ([1, 3, 0, 2, 4] : List Nat).Perm (List.range 5) ∧
      ((pickExtras [1, 3, 0, 2, 4] (skipOf demoRecs7.length 5)
          (getUnusedSlotCount demoRecs7.length 5)).length =
        (getUnusedSlotCount demoRecs7.length 5).toNat ∧
        (pickExtras [1, 3, 0, 2, 4] (skipOf demoRecs7.length 5)
          (getUnusedSlotCount demoRecs7.length 5)).Pairwise (· < ·) ∧
        (∀ e ∈ pickExtras [1, 3, 0, 2, 4] (skipOf demoRecs7.length 5)
            (getUnusedSlotCount demoRecs7.length 5),
          e < 5 ∧ e % skipOf demoRecs7.length 5 ≠ 0) ∧
        ∃ c, buildCache (fileBytes demoRecs7) demoRecs7.length (5 : Int)
            [1, 3, 0, 2, 4] = some c ∧ c.length = 5) :=
  ⟨by decide, by omega, by decide, by decide,
    buildCache_extras_amended demoRecs7 5 [1, 3, 0, 2, 4] (by decide)
      (by omega) (by decide) (by decide)⟩

/-- C7: whatever capacity and random slots buildCache was given, any
anchor sequence it returns is strictly ascending by line number (hence
without duplicates) and every anchor carries the true start offset of its
line; the embedding is pure, so no later operation can mutate it. -/
theorem buildCache_anchor_invariant (recs : List LineRec) (cap : Int)
    (randSlots : List Nat) (c : List lineInfo) (hwf : WFRecs recs)
    (hb : buildCache (fileBytes recs) recs.length cap randSlots = some c) :
    ValidCache recs c := by
  unfold buildCache at hb
  split at hb
  · cases hb
    exact processLines_valid recs recs.length recs.length 1 randSlots hwf rfl
  · split at hb
    · cases hb
    · split at hb
      · cases hb
      · cases hb
        exact processLines_valid recs cap.toNat recs.length
          (skipOf recs.length cap.toNat) randSlots hwf rfl

/-- Witness for C7 on the two line demonstration file. -/
theorem buildCache_anchor_invariant_witness :
    WFRecs demoRecs ∧
      buildCache (fileBytes demoRecs) demoRecs.length 2 [1, 0] =
        some [⟨0, 0⟩, ⟨1, 2⟩] ∧
      ValidCache demoRecs [⟨0, 0⟩, ⟨1, 2⟩] :=
  ⟨by decide, by decide,
    buildCache_anchor_invariant demoRecs 2 [1, 0] [⟨0, 0⟩, ⟨1, 2⟩]
      (by decide) (by decide)⟩

/-- C8: Lookup reports an out-of-range error exactly for requested line
numbers below 1 or above totalLines, on every file and cache. -/
theorem Lookup_out_of_range_iff (bytes : List Nat) (cache : List lineInfo)
    (totLines : Nat) (n : Int) :
    isOutOfRangeErr (Lookup bytes cache totLines n) = true ↔
      n < 1 ∨ (totLines : Int) < n := by
  unfold Lookup
  by_cases h : n - 1 < 0 ∨ (totLines : Int) ≤ n - 1
  · rw [if_pos h]
    simp only [isOutOfRangeErr]
    constructor
    · intro _
      omega
    · intro _
      trivial
  · rw [if_neg h]
    simp only
    apply iff_of_false ?_ (by omega)
    cases hfind : findLineInfo (n - 1).toNat cache with
    | none =>
      dsimp only
      rw [(scanLoop_shape _ _).1]
      simp
    | some li =>
      dsimp only
      by_cases hlt : (n - 1).toNat < li.lineno
      · rw [if_pos hlt]
        simp [isOutOfRangeErr]
      · rw [if_neg hlt]
        rw [(scanLoop_shape _ _).1]
        simp

/-- C9: the shutdown transition is idempotent: a second invocation,
whether from the SHUTDOWN command or the termination signal handler
(both call the same function), is a no-op that neither errors nor closes
the listener a second time. -/
theorem shutdown_idempotent (s : ServerState) :
    shutdown (shutdown s) = shutdown s := by
  by_cases h : s.isShutdown <;> simp [shutdown, h]

/-- C10: the binary search never returns an anchor with line number
above the target, on any cache whatsoever; consequently the defensive
unexpected-search branch of Lookup is unreachable for every input. -/
theorem findLineInfo_le_and_defensive_unreachable :
    (∀ (t : Nat) (s : List lineInfo) (li : lineInfo),
        findLineInfo t s = some li → li.lineno ≤ t) ∧
      ∀ (bytes : List Nat) (cache : List lineInfo) (totLines : Nat) (n : Int),
        isUnexpectedErr (Lookup bytes cache totLines n) = false := by
  constructor
  · intro t s li h
    exact findLineInfo_le_aux s.length s t li le_rfl h
  · intro bytes cache totLines n
    unfold Lookup
    by_cases h : n - 1 < 0 ∨ (totLines : Int) ≤ n - 1
    · rw [if_pos h]
      rfl
    · rw [if_neg h]
      simp only
      cases hfind : findLineInfo (n - 1).toNat cache with
      | none =>
        dsimp only
        exact (scanLoop_shape _ _).2
      | some li =>
        dsimp only
        have hle := findLineInfo_le_aux cache.length cache (n - 1).toNat li
          le_rfl hfind
        rw [if_neg (by omega : ¬(n - 1).toNat < li.lineno)]
        exact (scanLoop_shape _ _).2
